import Mathlib

/-
Verification of the notcli repository's idempotent mutation pipeline and
block-editing engine against its natural-language specification.

The TypeScript sources are shallowly embedded:
* JSON values (request shapes, stored responses) are the inductive `Json`
  below; JavaScript numbers are modelled as integers (no claim touches
  floating-point formatting).
* The SQLite idempotency table is a list of rows keyed by
  (idempotency_key, command_name); SQL statements become list operations.
* Asynchronous calls become pure functions over explicitly supplied
  attempt outcomes; wall-clock timing, backoff sleeps and the rate limiter
  lane are not modelled (no claim quantifies over them).
-/

namespace NotCli

/-- JSON data model (src/src/utils/json.ts operates on `unknown` JS values;
JSON.stringify / the canonicalizer only ever see this data model).
Object entries keep insertion order, as JS objects do. -/
inductive Json where
  | null
  | bool (b : Bool)
  | num (n : Int)
  | str (s : String)
  | arr (items : List Json)
  | obj (entries : List (String × Json))

mutual

def jsonDecEq : (a b : Json) → Decidable (a = b)
  | .null, .null => isTrue rfl
  | .bool a, .bool b =>
      match decEq a b with
      | isTrue h => isTrue (by rw [h])
      | isFalse h => isFalse (fun hh => h (Json.bool.inj hh))
  | .num a, .num b =>
      match decEq a b with
      | isTrue h => isTrue (by rw [h])
      | isFalse h => isFalse (fun hh => h (Json.num.inj hh))
  | .str a, .str b =>
      match decEq a b with
      | isTrue h => isTrue (by rw [h])
      | isFalse h => isFalse (fun hh => h (Json.str.inj hh))
  | .arr xs, .arr ys =>
      match jsonDecEqList xs ys with
      | isTrue h => isTrue (by rw [h])
      | isFalse h => isFalse (fun hh => h (Json.arr.inj hh))
  | .obj es, .obj fs =>
      match jsonDecEqEntries es fs with
      | isTrue h => isTrue (by rw [h])
      | isFalse h => isFalse (fun hh => h (Json.obj.inj hh))
  | .null, .bool _ => isFalse nofun
  | .null, .num _ => isFalse nofun
  | .null, .str _ => isFalse nofun
  | .null, .arr _ => isFalse nofun
  | .null, .obj _ => isFalse nofun
  | .bool _, .null => isFalse nofun
  | .bool _, .num _ => isFalse nofun
  | .bool _, .str _ => isFalse nofun
  | .bool _, .arr _ => isFalse nofun
  | .bool _, .obj _ => isFalse nofun
  | .num _, .null => isFalse nofun
  | .num _, .bool _ => isFalse nofun
  | .num _, .str _ => isFalse nofun
  | .num _, .arr _ => isFalse nofun
  | .num _, .obj _ => isFalse nofun
  | .str _, .null => isFalse nofun
  | .str _, .bool _ => isFalse nofun
  | .str _, .num _ => isFalse nofun
  | .str _, .arr _ => isFalse nofun
  | .str _, .obj _ => isFalse nofun
  | .arr _, .null => isFalse nofun
  | .arr _, .bool _ => isFalse nofun
  | .arr _, .num _ => isFalse nofun
  | .arr _, .str _ => isFalse nofun
  | .arr _, .obj _ => isFalse nofun
  | .obj _, .null => isFalse nofun
  | .obj _, .bool _ => isFalse nofun
  | .obj _, .num _ => isFalse nofun
  | .obj _, .str _ => isFalse nofun
  | .obj _, .arr _ => isFalse nofun

def jsonDecEqList : (xs ys : List Json) → Decidable (xs = ys)
  | [], [] => isTrue rfl
  | [], _ :: _ => isFalse nofun
  | _ :: _, [] => isFalse nofun
  | x :: xs, y :: ys =>
      match jsonDecEq x y, jsonDecEqList xs ys with
      | isTrue h1, isTrue h2 => isTrue (by rw [h1, h2])
      | isFalse h1, _ => isFalse (fun hh => h1 (by injection hh))
      | _, isFalse h2 => isFalse (fun hh => h2 (by injection hh))

def jsonDecEqEntries : (es fs : List (String × Json)) → Decidable (es = fs)
  | [], [] => isTrue rfl
  | [], _ :: _ => isFalse nofun
  | _ :: _, [] => isFalse nofun
  | (k, v) :: es, (l, w) :: fs =>
      match decEq k l, jsonDecEq v w, jsonDecEqEntries es fs with
      | isTrue h1, isTrue h2, isTrue h3 => isTrue (by rw [h1, h2, h3])
      | isFalse h1, _, _ =>
          isFalse (fun hh => h1 (congrArg Prod.fst (List.cons.inj hh).1))
      | _, isFalse h2, _ =>
          isFalse (fun hh => h2 (congrArg Prod.snd (List.cons.inj hh).1))
      | _, _, isFalse h3 => isFalse (fun hh => h3 (List.cons.inj hh).2)

end

instance : DecidableEq Json := jsonDecEq

/-- JSON string quoting as in JSON.stringify: backslash and quote escaped.
(Control-character escapes are irrelevant to every claim.) -/
def quoteJsonString (s : String) : String :=
  "\"" ++ String.join (s.toList.map fun c =>
    if c = '\\' then "\\\\"
    else if c = '"' then "\\\""
    else String.singleton c) ++ "\""

mutual

/-- JSON.stringify over the data model: arrays keep element order, object
entries keep their list order. -/
def stringifyJson : Json → String
  | .null => "null"
  | .bool true => "true"
  | .bool false => "false"
  | .num n => toString n
  | .str s => quoteJsonString s
  | .arr items => "[" ++ String.intercalate "," (stringifyJsonList items) ++ "]"
  | .obj entries => "\x7b" ++ String.intercalate "," (stringifyJsonEntries entries) ++ "\x7d"

def stringifyJsonList : List Json → List String
  | [] => []
  | x :: xs => stringifyJson x :: stringifyJsonList xs

def stringifyJsonEntries : List (String × Json) → List String
  | [] => []
  | e :: es => (quoteJsonString e.1 ++ ":" ++ stringifyJson e.2) :: stringifyJsonEntries es

end

/-- Lexicographic comparison of character lists by code point. -/
def lexLe : List Char → List Char → Bool
  | [], _ => true
  | _ :: _, [] => false
  | c :: cs, d :: ds =>
    if c.toNat < d.toNat then true
    else if d.toNat < c.toNat then false
    else lexLe cs ds

/-- U+0301 COMBINING ACUTE ACCENT. -/
def combiningAcute : Char := '\u0301'

/-- U+00E9 LATIN SMALL LETTER E WITH ACUTE, the canonical composition of
`e` followed by U+0301. -/
def eAcute : Char := '\u00E9'

/-- A minimal model of Unicode canonical composition (NFC): the
representative canonically-equivalent pair `e` + U+0301 is composed to
`é`; every other character sequence is left unchanged.  ECMA-402 requires
`localeCompare` to return 0 on strings that are canonically equivalent
under the Unicode standard, and this model realizes that requirement for
the representative pair; one such pair is all the canonicalization
arguments need, since any further equivalent pair behaves the same way. -/
def nfcChars : List Char → List Char
  | [] => []
  | [c] => [c]
  | c :: d :: rest =>
    if c = 'e' && d = combiningAcute then eAcute :: nfcChars rest
    else c :: nfcChars (d :: rest)

/-- Whether two strings are canonically equivalent (under the NFC model):
exactly the strings `localeCompare` ties. -/
def strCanonEquiv (a b : String) : Prop := nfcChars a.toList = nfcChars b.toList

/-- Key comparison used when sorting object entries, modelling
`a.localeCompare(b) <= 0`: canonically equivalent keys compare equal in
both directions (the ECMA-402 tie), and separated keys are ordered by code
point of their canonical forms.  The residual order on separated keys is a
disclosed abstraction of the locale's collation: when every pair of
distinct keys is separated the sorted entry list is determined by the key
set alone, and when two distinct keys tie the stable sort keeps their
insertion order — both behaviors are what the canonicalization theorems
below are about. -/
def strLeB (a b : String) : Bool := lexLe (nfcChars a.toList) (nfcChars b.toList)

/-- Entry comparison: object entries are ordered by key only. -/
def entryLEP (a b : String × Json) : Prop := strLeB a.1 b.1 = true

instance : DecidableRel entryLEP := fun a b =>
  inferInstanceAs (Decidable (strLeB a.1 b.1 = true))

mutual

/-- `sortValue` from src/src/utils/json.ts: arrays map `sortValue` over their
elements in order; objects sort their entries by key and recurse into each
value.  The source sorts the entry list first and then rebuilds it with
recursed values; since the comparator reads only the (untouched) keys, the
recursion and the sort commute, and the recursion is applied first here to
keep the definition structural.  The JS comparison sort is modelled by the
stable `List.insertionSort`. -/
def sortValue : Json → Json
  | .null => .null
  | .bool b => .bool b
  | .num n => .num n
  | .str s => .str s
  | .arr items => .arr (sortValueList items)
  | .obj entries => .obj (List.insertionSort entryLEP (sortValueEntries entries))

def sortValueList : List Json → List Json
  | [] => []
  | x :: xs => sortValue x :: sortValueList xs

def sortValueEntries : List (String × Json) → List (String × Json)
  | [] => []
  | e :: es => (e.1, sortValue e.2) :: sortValueEntries es

end

/-- `stableStringify` from src/src/utils/json.ts. -/
def stableStringify (value : Json) : String :=
  stringifyJson (sortValue value)

/-- `hashObject` from src/src/utils/json.ts computes
sha256(stableStringify value).  The digest function is abstracted as a
parameter `H : String → String`; equal canonical strings give equal digests
for every `H`, and distinct digests for distinct strings whenever `H` is
injective (collision-freeness of sha256 on the inputs at hand). -/
def hashObject (H : String → String) (value : Json) : String :=
  H (stableStringify value)

/-- `buildInternalIdempotencyKey` from src/src/idempotency/store.ts.
The time bucket `Math.floor(Date.now() / 120000)` is passed explicitly. -/
def buildInternalIdempotencyKey (H : String → String) (bucket : Nat)
    (commandName : String) (requestShape : Json) : String :=
  commandName ++ ":" ++ toString bucket ++ ":" ++
    hashObject H (.obj [("commandName", .str commandName), ("requestShape", requestShape)])

mutual

/-- Well-formedness of an embedded JSON value as a JavaScript value:
object keys are pairwise distinct at every nesting level (JS objects cannot
carry duplicate keys). -/
def wfJson : Json → Bool
  | .null => true
  | .bool _ => true
  | .num _ => true
  | .str _ => true
  | .arr items => wfJsonList items
  | .obj entries => decide ((entries.map Prod.fst).Nodup) && wfJsonEntries entries

def wfJsonList : List Json → Bool
  | [] => true
  | x :: xs => wfJson x && wfJsonList xs

def wfJsonEntries : List (String × Json) → Bool
  | [] => true
  | e :: es => wfJson e.2 && wfJsonEntries es

end

theorem lexLe_total : ∀ xs ys : List Char, lexLe xs ys = true ∨ lexLe ys xs = true
  | [], _ => Or.inl rfl
  | _ :: _, [] => Or.inr rfl
  | c :: cs, d :: ds => by
    rcases Nat.lt_trichotomy c.toNat d.toNat with h | h | h
    · left
      simp [lexLe, h]
    · rcases lexLe_total cs ds with ih | ih
      · left
        simp [lexLe, h, ih]
      · right
        simp [lexLe, h.symm, ih]
    · right
      simp [lexLe, h]

theorem lexLe_trans : ∀ {xs ys zs : List Char},
    lexLe xs ys = true → lexLe ys zs = true → lexLe xs zs = true
  | [], _, _, _, _ => rfl
  | _ :: _, [], _, h1, _ => by simp [lexLe] at h1
  | _ :: _, _ :: _, [], _, h2 => by simp [lexLe] at h2
  | c :: cs, d :: ds, e :: es, h1, h2 => by
    simp only [lexLe] at h1 h2 ⊢
    by_cases hcd : c.toNat < d.toNat
    · by_cases hde : d.toNat < e.toNat
      · have : c.toNat < e.toNat := Nat.lt_trans hcd hde
        simp [this]
      · simp only [if_pos hcd] at h1
        simp only [if_neg hde] at h2
        by_cases hed : e.toNat < d.toNat
        · simp [if_pos hcd, hed] at h2
        · have hde' : d.toNat = e.toNat := Nat.le_antisymm (Nat.le_of_not_lt hed) (Nat.le_of_not_lt hde)
          have : c.toNat < e.toNat := hde' ▸ hcd
          simp [this]
    · by_cases hdc : d.toNat < c.toNat
      · simp [if_neg hcd, if_pos hdc] at h1
      · have hcd' : c.toNat = d.toNat := Nat.le_antisymm (Nat.le_of_not_lt hdc) (Nat.le_of_not_lt hcd)
        simp only [if_neg hcd, if_neg hdc] at h1
        by_cases hde : d.toNat < e.toNat
        · have : c.toNat < e.toNat := hcd' ▸ hde
          simp [this]
        · by_cases hed : e.toNat < d.toNat
          · simp [if_neg hde, if_pos hed] at h2
          · have hde' : d.toNat = e.toNat := Nat.le_antisymm (Nat.le_of_not_lt hed) (Nat.le_of_not_lt hde)
            simp only [if_neg hde, if_neg hed] at h2
            have hce : ¬ c.toNat < e.toNat := by omega
            have hec : ¬ e.toNat < c.toNat := by omega
            simp only [if_neg hce, if_neg hec]
            exact lexLe_trans h1 h2

theorem charEq_of_toNat_eq {c d : Char} (h : c.toNat = d.toNat) : c = d := by
  apply Char.ext
  apply UInt32.ext
  simpa [Char.toNat, UInt32.toNat] using h

theorem lexLe_antisymm : ∀ {xs ys : List Char},
    lexLe xs ys = true → lexLe ys xs = true → xs = ys
  | [], [], _, _ => rfl
  | [], _ :: _, _, h2 => by simp [lexLe] at h2
  | _ :: _, [], h1, _ => by simp [lexLe] at h1
  | c :: cs, d :: ds, h1, h2 => by
    simp only [lexLe] at h1 h2
    by_cases hcd : c.toNat < d.toNat
    · simp [if_neg (Nat.lt_asymm hcd), if_pos hcd] at h2
    · by_cases hdc : d.toNat < c.toNat
      · simp [if_neg hcd, if_pos hdc] at h1
      · have hq : c.toNat = d.toNat := Nat.le_antisymm (Nat.le_of_not_lt hdc) (Nat.le_of_not_lt hcd)
        simp only [if_neg hcd, if_neg hdc] at h1 h2
        have heads : c = d := charEq_of_toNat_eq hq
        have tails : cs = ds := lexLe_antisymm h1 h2
        rw [heads, tails]

theorem strLeB_total (a b : String) : strLeB a b = true ∨ strLeB b a = true :=
  lexLe_total (nfcChars a.toList) (nfcChars b.toList)

theorem strLeB_trans {a b c : String} (h1 : strLeB a b = true) (h2 : strLeB b c = true) :
    strLeB a c = true :=
  lexLe_trans h1 h2

theorem strLeB_antisymm {a b : String} (h1 : strLeB a b = true) (h2 : strLeB b a = true) :
    strCanonEquiv a b :=
  lexLe_antisymm h1 h2

instance : IsTotal (String × Json) entryLEP :=
  ⟨fun a b => strLeB_total a.1 b.1⟩

instance : IsTrans (String × Json) entryLEP :=
  ⟨fun _ _ _ h1 h2 => strLeB_trans h1 h2⟩

/-- Strict version of the entry order, used to state uniqueness of the sorted
entry list when the collator separates all keys (no two keys canonically
equivalent). -/
def entryLT (a b : String × Json) : Prop := entryLEP a b ∧ ¬ strCanonEquiv a.1 b.1

instance : IsAntisymm (String × Json) entryLT :=
  ⟨fun _ _ h1 h2 => absurd (strLeB_antisymm h1.1 h2.1) h1.2⟩

/-- The canonical (NFC-modelled) form of an entry's key. -/
def entryKeyCanon (e : String × Json) : List Char := nfcChars e.1.toList

theorem sortValueList_eq_map : ∀ xs : List Json, sortValueList xs = xs.map sortValue
  | [] => rfl
  | x :: xs => by simp [sortValueList, sortValueList_eq_map xs]

theorem sortValueEntries_eq_map : ∀ es : List (String × Json),
    sortValueEntries es = es.map (fun e => (e.1, sortValue e.2))
  | [] => rfl
  | e :: es => by simp [sortValueEntries, sortValueEntries_eq_map es]

theorem sortValueEntries_map_fst (es : List (String × Json)) :
    (sortValueEntries es).map Prod.fst = es.map Prod.fst := by
  rw [sortValueEntries_eq_map, List.map_map]
  rfl

theorem wfJsonList_iff : ∀ {xs : List Json},
    wfJsonList xs = true ↔ ∀ x ∈ xs, wfJson x = true
  | [] => by simp [wfJsonList]
  | x :: xs => by
    simp [wfJsonList, Bool.and_eq_true, wfJsonList_iff]

theorem wfJsonEntries_iff : ∀ {es : List (String × Json)},
    wfJsonEntries es = true ↔ ∀ e ∈ es, wfJson e.2 = true
  | [] => by simp [wfJsonEntries]
  | e :: es => by
    simp [wfJsonEntries, Bool.and_eq_true, wfJsonEntries_iff]

mutual

/-- The collator separates the keys of a value: at every nesting level, no
two keys of an object are canonically equivalent (so `localeCompare` never
ties two distinct keys).  Strictly stronger than `wfJson` and the
hypothesis under which canonicalization is order-invariant. -/
def keysSeparated : Json → Bool
  | .null => true
  | .bool _ => true
  | .num _ => true
  | .str _ => true
  | .arr items => keysSeparatedList items
  | .obj entries =>
    decide ((entries.map entryKeyCanon).Nodup) && keysSeparatedEntries entries

def keysSeparatedList : List Json → Bool
  | [] => true
  | x :: xs => keysSeparated x && keysSeparatedList xs

def keysSeparatedEntries : List (String × Json) → Bool
  | [] => true
  | e :: es => keysSeparated e.2 && keysSeparatedEntries es

end

theorem keysSeparatedList_iff : ∀ {xs : List Json},
    keysSeparatedList xs = true ↔ ∀ x ∈ xs, keysSeparated x = true
  | [] => by simp [keysSeparatedList]
  | x :: xs => by
    simp [keysSeparatedList, Bool.and_eq_true, keysSeparatedList_iff]

theorem keysSeparatedEntries_iff : ∀ {es : List (String × Json)},
    keysSeparatedEntries es = true ↔ ∀ e ∈ es, keysSeparated e.2 = true
  | [] => by simp [keysSeparatedEntries]
  | e :: es => by
    simp [keysSeparatedEntries, Bool.and_eq_true, keysSeparatedEntries_iff]

theorem sortValueEntries_map_keyCanon (es : List (String × Json)) :
    (sortValueEntries es).map entryKeyCanon = es.map entryKeyCanon := by
  rw [sortValueEntries_eq_map, List.map_map]
  rfl

mutual

/-- Structural equality of JSON values up to the ordering of object keys,
recursively at every nesting depth: arrays must agree element by element in
order; objects must carry the same keys with (recursively) equal values, in
any order. -/
inductive KeyPermEq : Json → Json → Prop where
  | null : KeyPermEq .null .null
  | bool (b : Bool) : KeyPermEq (.bool b) (.bool b)
  | num (n : Int) : KeyPermEq (.num n) (.num n)
  | str (s : String) : KeyPermEq (.str s) (.str s)
  | arr {xs ys : List Json} : KeyPermList xs ys → KeyPermEq (.arr xs) (.arr ys)
  | obj {es ms fs : List (String × Json)} :
      KeyPermEntries es ms → ms.Perm fs → KeyPermEq (.obj es) (.obj fs)

inductive KeyPermList : List Json → List Json → Prop where
  | nil : KeyPermList [] []
  | cons {x y : Json} {xs ys : List Json} :
      KeyPermEq x y → KeyPermList xs ys → KeyPermList (x :: xs) (y :: ys)

inductive KeyPermEntries : List (String × Json) → List (String × Json) → Prop where
  | nil : KeyPermEntries [] []
  | cons {k : String} {v w : Json} {es fs : List (String × Json)} :
      KeyPermEq v w → KeyPermEntries es fs →
      KeyPermEntries ((k, v) :: es) ((k, w) :: fs)

end

/-- Two entry lists that are permutations of one another and sorted by the
keys' collation order, with pairwise non-equivalent keys (no collator
ties among distinct keys), are equal. -/
theorem insertionSort_eq_of_perm_of_nodupKeys {A B : List (String × Json)}
    (hp : A.Perm B) (hA : (A.map entryKeyCanon).Nodup) :
    List.insertionSort entryLEP A = List.insertionSort entryLEP B := by
  have pA := List.perm_insertionSort entryLEP A
  have pB := List.perm_insertionSort entryLEP B
  have hperm : (List.insertionSort entryLEP A).Perm (List.insertionSort entryLEP B) :=
    pA.trans (hp.trans pB.symm)
  have hB : (B.map entryKeyCanon).Nodup := ((hp.map entryKeyCanon).nodup_iff).mp hA
  have nA : ((List.insertionSort entryLEP A).map entryKeyCanon).Nodup :=
    ((pA.map entryKeyCanon).nodup_iff).mpr hA
  have nB : ((List.insertionSort entryLEP B).map entryKeyCanon).Nodup :=
    ((pB.map entryKeyCanon).nodup_iff).mpr hB
  have sA : List.Sorted entryLEP (List.insertionSort entryLEP A) :=
    List.sorted_insertionSort entryLEP A
  have sB : List.Sorted entryLEP (List.insertionSort entryLEP B) :=
    List.sorted_insertionSort entryLEP B
  have strictA : List.Sorted entryLT (List.insertionSort entryLEP A) := by
    have hne : (List.insertionSort entryLEP A).Pairwise
        (fun a b => entryKeyCanon a ≠ entryKeyCanon b) :=
      (List.pairwise_map).mp nA
    exact (sA.and hne).imp (fun h => ⟨h.1, h.2⟩)
  have strictB : List.Sorted entryLT (List.insertionSort entryLEP B) := by
    have hne : (List.insertionSort entryLEP B).Pairwise
        (fun a b => entryKeyCanon a ≠ entryKeyCanon b) :=
      (List.pairwise_map).mp nB
    exact (sB.and hne).imp (fun h => ⟨h.1, h.2⟩)
  exact List.eq_of_perm_of_sorted hperm strictA strictB

theorem sortValueList_congr {n : Nat}
    (IH : ∀ a b : Json, sizeOf a ≤ n → KeyPermEq a b → keysSeparated a = true →
      keysSeparated b = true → sortValue a = sortValue b) :
    ∀ {xs ys : List Json}, KeyPermList xs ys → sizeOf xs ≤ n →
      (∀ x ∈ xs, keysSeparated x = true) → (∀ y ∈ ys, keysSeparated y = true) →
      sortValueList xs = sortValueList ys := by
  intro xs
  induction xs with
  | nil =>
    intro ys h _ _ _
    cases h
    rfl
  | cons x xs ihx =>
    intro ys h hsz hwx hwy
    cases h with
    | @cons _ y _ ys hxy hrest =>
      simp only [List.cons.sizeOf_spec] at hsz
      simp only [sortValueList]
      rw [IH x y (by omega) hxy (hwx x (by simp)) (hwy y (by simp)),
        ihx hrest (by omega) (fun z hz => hwx z (by simp [hz]))
          (fun z hz => hwy z (by simp [hz]))]

theorem sortValueEntries_congr {n : Nat}
    (IH : ∀ a b : Json, sizeOf a ≤ n → KeyPermEq a b → keysSeparated a = true →
      keysSeparated b = true → sortValue a = sortValue b) :
    ∀ {es fs : List (String × Json)}, KeyPermEntries es fs → sizeOf es ≤ n →
      (∀ e ∈ es, keysSeparated e.2 = true) → (∀ e ∈ fs, keysSeparated e.2 = true) →
      sortValueEntries es = sortValueEntries fs := by
  intro es
  induction es with
  | nil =>
    intro fs h _ _ _
    cases h
    rfl
  | cons e es ihe =>
    intro fs h hsz hwv hww
    cases h with
    | @cons k v w _ fs hvw hrest =>
      simp only [List.cons.sizeOf_spec, Prod.mk.sizeOf_spec] at hsz
      simp only [sortValueEntries]
      rw [IH v w (by omega) hvw (hwv (k, v) (by simp)) (hww (k, w) (by simp)),
        ihe hrest (by omega) (fun z hz => hwv z (by simp [hz]))
          (fun z hz => hww z (by simp [hz]))]

theorem sortValue_congr_of_keyPermEq :
    ∀ (n : Nat) (a b : Json), sizeOf a ≤ n → KeyPermEq a b →
      keysSeparated a = true → keysSeparated b = true → sortValue a = sortValue b := by
  intro n
  induction n with
  | zero =>
    intro a b hsz _ _ _
    exfalso
    cases a <;> simp at hsz
  | succ n ih =>
    intro a b hsz h hwa hwb
    cases h with
    | null => rfl
    | bool _ => rfl
    | num _ => rfl
    | str _ => rfl
    | @arr xs ys hlist =>
      simp only [Json.arr.sizeOf_spec] at hsz
      simp only [sortValue]
      rw [sortValueList_congr ih hlist (by omega)
        ((keysSeparatedList_iff).mp hwa) ((keysSeparatedList_iff).mp hwb)]
    | @obj es ms fs hentries hpm =>
      simp only [Json.obj.sizeOf_spec] at hsz
      have hwa' : (decide ((es.map entryKeyCanon).Nodup) && keysSeparatedEntries es) =
          true := hwa
      have hwb' : (decide ((fs.map entryKeyCanon).Nodup) && keysSeparatedEntries fs) =
          true := hwb
      rw [Bool.and_eq_true] at hwa' hwb'
      have hnodupEs : (es.map entryKeyCanon).Nodup := of_decide_eq_true hwa'.1
      have hwfEs : ∀ e ∈ es, keysSeparated e.2 = true := (keysSeparatedEntries_iff).mp hwa'.2
      have hwfFs : ∀ e ∈ fs, keysSeparated e.2 = true := (keysSeparatedEntries_iff).mp hwb'.2
      have hwfMs : ∀ e ∈ ms, keysSeparated e.2 = true :=
        fun e he => hwfFs e (hpm.mem_iff.mp he)
      have hA : sortValueEntries es = sortValueEntries ms :=
        sortValueEntries_congr ih hentries (by omega) hwfEs hwfMs
      have hBperm : (sortValueEntries ms).Perm (sortValueEntries fs) := by
        rw [sortValueEntries_eq_map, sortValueEntries_eq_map]
        exact hpm.map _
      have hperm : (sortValueEntries es).Perm (sortValueEntries fs) := hA ▸ hBperm
      have hnodupA : ((sortValueEntries es).map entryKeyCanon).Nodup := by
        rw [sortValueEntries_map_keyCanon]
        exact hnodupEs
      simp only [sortValue]
      rw [insertionSort_eq_of_perm_of_nodupKeys hperm hnodupA]

/-- Canonicalization is invariant under recursive reordering of object keys
whenever the collator separates all keys: with no `localeCompare` tie among
distinct keys, the sorted entry list is determined by the key set alone. -/
theorem sortValue_eq_of_keyPermEq {a b : Json} (h : KeyPermEq a b)
    (hwa : keysSeparated a = true) (hwb : keysSeparated b = true) :
    sortValue a = sortValue b :=
  sortValue_congr_of_keyPermEq (sizeOf a) a b (Nat.le_refl _) h hwa hwb

theorem stableStringify_eq_of_keyPermEq {a b : Json} (h : KeyPermEq a b)
    (hwa : keysSeparated a = true) (hwb : keysSeparated b = true) :
    stableStringify a = stableStringify b :=
  congrArg stringifyJson (sortValue_eq_of_keyPermEq h hwa hwb)

/-- Error codes from src/src/errors/codes.ts. -/
inductive ErrorCode where
  | invalid_input
  | not_found
  | conflict
  | retryable_upstream
  | auth_or_config
  | idempotency_key_conflict
  | internal_error
deriving DecidableEq

/-- `CliError` from src/src/errors/cli-error.ts, reduced to the fields the
claims inspect (the human-readable message and `details` are dropped). The
`retryable` option defaults to `false` in the source constructor. -/
structure CliError where
  code : ErrorCode
  retryable : Bool
deriving DecidableEq

/-- An error raised by the upstream client: `getStatus` reads a numeric
`status` field when present (src/src/notion/client.ts and
src/src/errors/cli-error.ts inspect nothing else on the claims' paths). -/
structure UpstreamError where
  status : Option Nat
deriving DecidableEq

/-- `toCliError` from src/src/errors/cli-error.ts, restricted to
status-bearing upstream errors (the `CliError` passthrough, the
ENOENT-message test and the `idempotency_key_conflict` code passthrough
branches concern other input shapes). -/
def toCliError (e : UpstreamError) : CliError :=
  match e.status with
  | some 400 => ⟨.invalid_input, false⟩
  | some 401 => ⟨.auth_or_config, false⟩
  | some 403 => ⟨.auth_or_config, false⟩
  | some 404 => ⟨.not_found, false⟩
  | some 409 => ⟨.conflict, false⟩
  | some s => if s = 429 || 500 ≤ s then ⟨.retryable_upstream, true⟩ else ⟨.internal_error, false⟩
  | none => ⟨.internal_error, false⟩

/-- `isRetryable` from src/src/notion/client.ts: transient statuses are
429, 502, 503 and 504. -/
def isRetryable (e : UpstreamError) : Bool :=
  e.status == some 429 || e.status == some 502 || e.status == some 503 || e.status == some 504

theorem toCliError_of_isRetryable {e : UpstreamError} (h : isRetryable e = true) :
    toCliError e = ⟨.retryable_upstream, true⟩ := by
  obtain ⟨st⟩ := e
  simp only [isRetryable, Bool.or_eq_true, beq_iff_eq] at h
  rcases h with (((h | h) | h) | h) <;> subst h <;> decide

/-- One row of the `idempotency_records` table
(src/src/idempotency/store.ts).  `response_json` holds JSON text; since
every stored string is `JSON.stringify` of a JSON value and
`JSON.stringify` is injective on this data model, the column is embedded as
the `Json` value itself (`created_at` carries no claim-relevant
information and is dropped). -/
structure StoreRow where
  idempotency_key : String
  command_name : String
  input_hash : String
  response : Json
deriving DecidableEq

/-- The table: a list of rows.  The PRIMARY KEY (idempotency_key,
command_name) makes reachable states carry at most one row per key pair. -/
abbrev StoreState := List StoreRow

/-- `PENDING_RESPONSE_JSON = JSON.stringify({ __notion_lite_pending: true })`,
as the JSON value it serializes. -/
def PENDING_RESPONSE : Json := .obj [("__notion_lite_pending", .bool true)]

/-- Whether a row matches the table's primary key. -/
def rowKeyMatch (row : StoreRow) (key cmd : String) : Bool :=
  row.idempotency_key == key && row.command_name == cmd

/-- `SELECT ... WHERE idempotency_key = ? AND command_name = ?` (first row). -/
def findRow (s : StoreState) (key cmd : String) : Option StoreRow :=
  s.find? (fun row => rowKeyMatch row key cmd)

/-- `IdempotencyLookup` from src/src/idempotency/store.ts. -/
inductive IdempotencyLookup where
  | miss
  | pending
  | replay (response : Json)
  | conflict (storedHash : String)
deriving DecidableEq

/-- `IdempotencyReservation` from src/src/idempotency/store.ts. -/
inductive IdempotencyReservation where
  | execute
  | pending
  | replay (response : Json)
  | conflict (storedHash : String)
deriving DecidableEq

/-- `IdempotencyStore.lookup`: read the row for (key, command); a differing
stored hash is a conflict; the pending sentinel means pending; anything else
replays the stored response.  (The `JSON.parse` failure branch is
unreachable here because stored values are JSON by construction.) -/
def lookup (s : StoreState) (key cmd hash : String) : IdempotencyLookup :=
  match findRow s key cmd with
  | none => .miss
  | some row =>
    if row.input_hash ≠ hash then .conflict row.input_hash
    else if row.response = PENDING_RESPONSE then .pending
    else .replay row.response

/-- `INSERT OR IGNORE` of a fresh pending row: inserts only if no row with
the primary key exists; returns whether a row was inserted (`changes = 1`). -/
def insertIfAbsent (s : StoreState) (key cmd hash : String) : Bool × StoreState :=
  match findRow s key cmd with
  | some _ => (false, s)
  | none => (true, s ++ [⟨key, cmd, hash, PENDING_RESPONSE⟩])

/-- `IdempotencyStore.reserve`: attempt the atomic insert; on success the
caller executes; otherwise report the looked-up state.  The source re-checks
for a concurrently vanished row (`miss` after a failed insert) and retries
the claim once; in this sequential model that branch is unreachable but is
transcribed all the same. -/
def reserve (s : StoreState) (key cmd hash : String) :
    IdempotencyReservation × StoreState :=
  match insertIfAbsent s key cmd hash with
  | (true, s1) => (.execute, s1)
  | (false, s1) =>
    match lookup s1 key cmd hash with
    | .miss =>
      match insertIfAbsent s1 key cmd hash with
      | (true, s2) => (.execute, s2)
      | (false, s2) => (.pending, s2)
    | .pending => (.pending, s1)
    | .replay r => (.replay r, s1)
    | .conflict h => (.conflict h, s1)

/-- Rows targeted by `complete`'s UPDATE and `release`'s DELETE:
key, command and input hash must all match. -/
def rowFullMatch (row : StoreRow) (key cmd hash : String) : Bool :=
  rowKeyMatch row key cmd && row.input_hash == hash

/-- `IdempotencyStore.complete`: `UPDATE ... SET response_json = ? WHERE
idempotency_key = ? AND command_name = ? AND input_hash = ?`, then fail with
an internal error unless exactly one row changed.  Returns the error (if
any) alongside the updated table. -/
def complete (s : StoreState) (key cmd hash : String) (response : Json) :
    Option CliError × StoreState :=
  let s1 := s.map (fun row =>
    if rowFullMatch row key cmd hash then ⟨row.idempotency_key, row.command_name, row.input_hash, response⟩
    else row)
  let changes := s.countP (fun row => rowFullMatch row key cmd hash)
  if changes = 1 then (none, s1) else (some ⟨.internal_error, false⟩, s1)

/-- `IdempotencyStore.release`: `DELETE ... WHERE idempotency_key = ? AND
command_name = ? AND input_hash = ? AND response_json = ?` with the pending
sentinel as the response value. -/
def release (s : StoreState) (key cmd hash : String) : StoreState :=
  s.filter (fun row =>
    !(rowFullMatch row key cmd hash && row.response == PENDING_RESPONSE))

/-- The PRIMARY KEY constraint of the `idempotency_records` table: no two
rows share (idempotency_key, command_name).  Every state reachable through
the store operations satisfies it. -/
def pkUnique (s : StoreState) : Prop :=
  (s.map (fun row => (row.idempotency_key, row.command_name))).Nodup

theorem rowKeyMatch_iff {row : StoreRow} {key cmd : String} :
    rowKeyMatch row key cmd = true ↔ row.idempotency_key = key ∧ row.command_name = cmd := by
  simp [rowKeyMatch, Bool.and_eq_true]

theorem findRow_append_fresh {s : StoreState} {key cmd : String} (hash : String)
    (h : findRow s key cmd = none) :
    findRow (s ++ [⟨key, cmd, hash, PENDING_RESPONSE⟩]) key cmd =
      some ⟨key, cmd, hash, PENDING_RESPONSE⟩ := by
  unfold findRow at h ⊢
  rw [List.find?_append, h]
  simp [rowKeyMatch]

theorem release_append_fresh {s : StoreState} {key cmd : String} (hash : String)
    (h : findRow s key cmd = none) :
    release (s ++ [⟨key, cmd, hash, PENDING_RESPONSE⟩]) key cmd hash = s := by
  unfold release
  rw [List.filter_append]
  have h1 : ∀ row ∈ s, rowKeyMatch row key cmd = false := by
    intro row hr
    simpa using List.find?_eq_none.mp h row hr
  have hs : s.filter
      (fun row => !(rowFullMatch row key cmd hash && row.response == PENDING_RESPONSE)) = s := by
    apply List.filter_eq_self.mpr
    intro row hr
    simp [rowFullMatch, h1 row hr]
  rw [hs]
  simp [rowFullMatch, rowKeyMatch]

theorem findRow_map {s : StoreState} {key cmd : String} (f : StoreRow → StoreRow)
    (hf : ∀ row, rowKeyMatch (f row) key cmd = rowKeyMatch row key cmd) :
    findRow (s.map f) key cmd = (findRow s key cmd).map f := by
  induction s with
  | nil => rfl
  | cons r s ih =>
    unfold findRow at ih ⊢
    simp only [List.map_cons]
    cases hk : rowKeyMatch r key cmd
    · rw [List.find?_cons_of_neg, List.find?_cons_of_neg]
      · exact ih
      · simp [hk]
      · simp [hf r, hk]
    · rw [List.find?_cons_of_pos, List.find?_cons_of_pos]
      · rfl
      · simp [hk]
      · simp [hf r, hk]

theorem countP_fullMatch_of_find {s : StoreState} {key cmd hash : String} {row : StoreRow}
    (hu : pkUnique s) (hf : findRow s key cmd = some row) (hh : row.input_hash = hash) :
    s.countP (fun r => rowFullMatch r key cmd hash) = 1 := by
  induction s with
  | nil => simp [findRow] at hf
  | cons r s ih =>
    rw [List.countP_cons]
    obtain ⟨hnotmem, hutail⟩ := List.nodup_cons.mp hu
    cases hk : rowKeyMatch r key cmd
    · have hf' : findRow s key cmd = some row := by
        unfold findRow at hf ⊢
        rwa [List.find?_cons_of_neg] at hf
        simp [hk]
      have : rowFullMatch r key cmd hash = false := by
        simp [rowFullMatch, hk]
      rw [this]
      simpa using ih hutail hf'
    · have hrow : row = r := by
        unfold findRow at hf
        rw [List.find?_cons_of_pos] at hf
        · exact (Option.some.inj hf).symm
        · simp [hk]
      subst hrow
      have hfull : rowFullMatch row key cmd hash = true := by
        simp [rowFullMatch, hk, hh]
      rw [hfull]
      have hzero : s.countP (fun r => rowFullMatch r key cmd hash) = 0 := by
        apply List.countP_eq_zero.mpr
        intro r' hr' hfull'
        have hk' : rowKeyMatch r' key cmd = true := by
          have := (Bool.and_eq_true _ _).mp hfull'
          exact this.1
        obtain ⟨hk1, hk2⟩ := rowKeyMatch_iff.mp hk'
        obtain ⟨hr1, hr2⟩ := rowKeyMatch_iff.mp hk
        apply hnotmem
        have : (r'.idempotency_key, r'.command_name) ∈
            s.map (fun row => (row.idempotency_key, row.command_name)) :=
          List.mem_map_of_mem _ hr'
        rw [hk1, hk2, ← hr1, ← hr2] at this
        exact this
      rw [hzero]
      simp

theorem rowFullMatch_of_find {s : StoreState} {key cmd : String} {row : StoreRow}
    (hf : findRow s key cmd = some row) : rowKeyMatch row key cmd = true := by
  unfold findRow at hf
  simpa using List.find?_some hf

/-- `reserve` on a state with no row for the key pair: the insert succeeds
and the caller executes. -/
theorem reserve_fresh {s : StoreState} {key cmd : String} (hash : String)
    (h : findRow s key cmd = none) :
    reserve s key cmd hash = (.execute, s ++ [⟨key, cmd, hash, PENDING_RESPONSE⟩]) := by
  unfold reserve insertIfAbsent
  rw [h]

/-- `reserve` against an existing pending row with the same hash reports
`pending` and leaves the table unchanged. -/
theorem reserve_pending {s : StoreState} {key cmd hash : String} {row : StoreRow}
    (h : findRow s key cmd = some row) (hhash : row.input_hash = hash)
    (hpend : row.response = PENDING_RESPONSE) :
    reserve s key cmd hash = (.pending, s) := by
  simp [reserve, insertIfAbsent, lookup, h, hhash, hpend]

/-- `reserve` against an existing row with a different hash reports
`conflict` with the stored hash and leaves the table unchanged. -/
theorem reserve_conflict {s : StoreState} {key cmd hash2 : String} {row : StoreRow}
    (h : findRow s key cmd = some row) (hne : row.input_hash ≠ hash2) :
    reserve s key cmd hash2 = (.conflict row.input_hash, s) := by
  simp [reserve, insertIfAbsent, lookup, h, hne]

/-- `complete` on a state whose (unique) row for the key pair is pending
with the matching hash: the update succeeds and a subsequent `lookup`
replays the stored response — provided the response value differs from the
pending sentinel. -/
theorem complete_lookup_roundtrip {s : StoreState} {key cmd hash : String} {row : StoreRow}
    {R : Json} (hu : pkUnique s) (hf : findRow s key cmd = some row)
    (hh : row.input_hash = hash) (hR : R ≠ PENDING_RESPONSE) :
    (complete s key cmd hash R).1 = none ∧
      lookup (complete s key cmd hash R).2 key cmd hash = .replay R := by
  have hcount := countP_fullMatch_of_find hu hf hh
  have hupd : ∀ r : StoreRow, rowKeyMatch
      (if rowFullMatch r key cmd hash then
        (⟨r.idempotency_key, r.command_name, r.input_hash, R⟩ : StoreRow) else r) key cmd =
      rowKeyMatch r key cmd := by
    intro r
    cases hfm : rowFullMatch r key cmd hash
    · simp [hfm]
    · simp [hfm, rowKeyMatch]
  refine ⟨by simp [complete, hcount], ?_⟩
  have hstate : (complete s key cmd hash R).2 = s.map (fun r =>
      if rowFullMatch r key cmd hash then
        ⟨r.idempotency_key, r.command_name, r.input_hash, R⟩ else r) := by
    simp [complete, hcount]
  rw [hstate]
  unfold lookup
  rw [findRow_map _ hupd, hf]
  have hfull : rowFullMatch row key cmd hash = true := by
    simp [rowFullMatch, rowFullMatch_of_find hf, hh]
  simp [hfull, hh, hR]

/-- `NotionClientAdapter.execute` (src/src/notion/client.ts): the retry
loop, embedded over an explicit per-attempt outcome function `fn` (attempt
numbers are 1-based).  Sleeps, exponential backoff, jitter and the
retry-after header only shape the waiting time between attempts and are not
modelled.  The result carries the number of attempts actually issued.
The post-loop `retryable_upstream` throw is transcribed in the `else`
branch; it is unreachable for `maxAttempts > 0` because the loop always
returns or throws. -/
def executeAux {α : Type} (fn : Nat → Except UpstreamError α) (maxAttempts attempt : Nat) :
    Except (UpstreamError ⊕ CliError) α × Nat :=
  if _h : attempt < maxAttempts then
    match fn (attempt + 1) with
    | .ok v => (.ok v, attempt + 1)
    | .error e =>
      if isRetryable e = false ∨ maxAttempts ≤ attempt + 1 then (.error (.inl e), attempt + 1)
      else executeAux fn maxAttempts (attempt + 1)
  else (.error (.inr ⟨.retryable_upstream, true⟩), attempt)
termination_by maxAttempts - attempt
decreasing_by
  omega

/-- The adapter runs every call with `maxAttempts = 5` starting from
attempt counter 0. -/
def executeTransport {α : Type} (fn : Nat → Except UpstreamError α) :
    Except (UpstreamError ⊕ CliError) α × Nat :=
  executeAux fn 5 0

/-- `withBestEffortPageMutation` (src/src/notion/repository.ts): re-read the
page, build and submit the patch; a 409 on a non-final attempt triggers one
more iteration from a fresh read; anything else is rethrown.  `retrieve i`
is the page read at the start of iteration `i`; `apply i page` is that
iteration's submission outcome.  The result also counts page reads and
submission attempts.  The post-loop `conflict` CliError is transcribed in
the `else` branch; with `attempts = 2` it is unreachable. -/
def bestEffortAux {π ρ : Type} (retrieve : Nat → π)
    (apply : Nat → π → Except UpstreamError ρ) (attempts attempt reads applies : Nat) :
    Except (UpstreamError ⊕ CliError) ρ × Nat × Nat :=
  if _h : attempt ≤ attempts then
    match apply attempt (retrieve attempt) with
    | .ok r => (.ok r, reads + 1, applies + 1)
    | .error e =>
      if e.status = some 409 ∧ attempt < attempts then
        bestEffortAux retrieve apply attempts (attempt + 1) (reads + 1) (applies + 1)
      else (.error (.inl e), reads + 1, applies + 1)
  else (.error (.inr ⟨.conflict, false⟩), reads, applies)
termination_by attempts + 1 - attempt
decreasing_by
  omega

/-- The source fixes `attempts = 2` and starts counting at 1. -/
def withBestEffortPageMutation {π ρ : Type} (retrieve : Nat → π)
    (apply : Nat → π → Except UpstreamError ρ) :
    Except (UpstreamError ⊕ CliError) ρ × Nat × Nat :=
  bestEffortAux retrieve apply 2 1 0 0

/-- An audit event, reduced to the `ok` flag the pipeline attaches. -/
abbrev AuditEvent := Bool

/-- `safeAppendAuditLog` (src/unnamed/part_000): append to the audit sink;
a sink failure is swallowed, so the event is simply lost and nothing else
happens. -/
def safeAppendAuditLog (sinkOk : Bool) (log : List AuditEvent) (ev : AuditEvent) :
    List AuditEvent :=
  if sinkOk then log ++ [ev] else log

/-- Outcome of one pipeline invocation: the command's result (a pipeline
CliError on the left, the unit of work's own error on the right), the final
store state, and the audit events that reached the sink. -/
structure PipelineResult (ε : Type) where
  outcome : Except (CliError ⊕ ε) Json
  store : StoreState
  audit : List AuditEvent

/-- `executeMutationWithIdempotency` (src/unnamed/part_000), in the
sequential world: there is no concurrent owner, so when `reserve` reports
`pending` every poll of the 15-second loop observes `pending` again, the
post-deadline re-reserve still returns `pending`, and the in-progress
failure is raised.  The unit of work's outcome is the explicit `run`
argument; `sinkOk` says whether the audit sink accepts events (its failures
are swallowed by `safeAppendAuditLog`). -/
def executeMutationWithIdempotency {ε : Type} (H : String → String) (bucket : Nat)
    (s0 : StoreState) (commandName : String) (requestShape : Json)
    (run : Except ε Json) (sinkOk : Bool) : PipelineResult ε :=
  let requestHash := hashObject H requestShape
  let idempotencyKey := buildInternalIdempotencyKey H bucket commandName requestShape
  match reserve s0 idempotencyKey commandName requestHash with
  | (.pending, s1) =>
    ⟨.error (.inl ⟨.retryable_upstream, true⟩), s1, safeAppendAuditLog sinkOk [] false⟩
  | (.conflict _, s1) =>
    ⟨.error (.inl ⟨.idempotency_key_conflict, false⟩), s1, safeAppendAuditLog sinkOk [] false⟩
  | (.replay r, s1) =>
    ⟨.ok r, s1, safeAppendAuditLog sinkOk [] true⟩
  | (.execute, s1) =>
    match run with
    | .ok response =>
      match complete s1 idempotencyKey commandName requestHash response with
      | (none, s2) => ⟨.ok response, s2, safeAppendAuditLog sinkOk [] true⟩
      | (some ce, s2) =>
        ⟨.error (.inl ce), release s2 idempotencyKey commandName requestHash,
          safeAppendAuditLog sinkOk [] false⟩
    | .error err =>
      ⟨.error (.inr err), release s1 idempotencyKey commandName requestHash,
        safeAppendAuditLog sinkOk [] false⟩

/-- A content block as the selector engine sees it: id, type, extracted
plain text, fingerprint timestamp.  (`has_children` and rich content play
no role in any claim.) -/
structure Block where
  id : String
  type : String
  text : String
  last_edited_time : String
deriving DecidableEq

/-- A selector predicate: exact type match and/or substring containment on
the block's plain text, each optional.  (The spec spells the field `where`;
that word is reserved here.) -/
structure BlockPredicate where
  type : Option String
  text_contains : Option String
deriving DecidableEq

/-- A block selector: predicate, optional 1-indexed ordinal, and the end the
ordinal counts from (the spec spells the flag `from: start|end`). -/
structure Selector where
  pred : BlockPredicate
  nth : Option Nat
  fromEnd : Bool
deriving DecidableEq

/-- Substring test on character lists (needle, then haystack). -/
def listIsInfixOf (needle : List Char) : List Char → Bool
  | [] => needle.isPrefixOf []
  | c :: rest => needle.isPrefixOf (c :: rest) || listIsInfixOf needle rest

/-- Substring containment on strings: does `hay` contain `needle`? -/
def strContainsSub (hay needle : String) : Bool :=
  listIsInfixOf needle.toList hay.toList

/-- Modelled from the spec: the per-block predicate evaluation of the Block
Selector Engine (§4.5) — "exact type match if specified; substring
containment on extracted plain text if specified".  The engine's
implementation is absent from src/ (only its tests are present). -/
def matchesPredicate (p : BlockPredicate) (b : Block) : Bool :=
  (match p.type with
   | some t => b.type == t
   | none => true) &&
  (match p.text_contains with
   | some s => strContainsSub b.text s
   | none => true)

/-- The selector engine's result shape. -/
structure SelectResult where
  match_count : Nat
  ambiguous : Bool
  selected : Option Block
deriving DecidableEq

/-- Modelled from the spec: `selectBlocks` (§4.5) — the implementation is
absent from src/ (only its tests are present).  Enumerate the scope's
direct children capped at `maxBlocks`, evaluate the predicate per block;
with `nth` select the 1-indexed ordinal match from the chosen end, failing
with not-found when out of range; with no `nth`: zero matches is an empty
non-ambiguous result, one match is selected, several matches report
`ambiguous` with nothing selected.  The engine never mutates: it is a pure
function of the listed siblings. -/
def selectBlocks (siblings : List Block) (sel : Selector) (maxBlocks : Nat) :
    Except CliError SelectResult :=
  let scope := siblings.take maxBlocks
  let ms := scope.filter (matchesPredicate sel.pred)
  match sel.nth with
  | some n =>
    let ordered := if sel.fromEnd then ms.reverse else ms
    match ordered.get? (n - 1) with
    | some b => .ok ⟨ms.length, false, some b⟩
    | none => .error ⟨.not_found, false⟩
  | none =>
    match ms with
    | [] => .ok ⟨0, false, none⟩
    | [b] => .ok ⟨1, false, some b⟩
    | _ => .ok ⟨ms.length, true, none⟩

/-- Modelled from the spec: selector resolution to a position in the sibling
list, as range replacement needs it (§4.5/§4.6).  Same semantics as
`selectBlocks` but returning the selected block's index; an ambiguous
selector cannot address a range endpoint and is rejected. -/
def resolveSelectorIndex (scope : List Block) (sel : Selector) : Except CliError Nat :=
  let ms := (scope.enum.filter (fun p => matchesPredicate sel.pred p.2)).map Prod.fst
  match sel.nth with
  | some n =>
    let ordered := if sel.fromEnd then ms.reverse else ms
    match ordered.get? (n - 1) with
    | some i => .ok i
    | none => .error ⟨.not_found, false⟩
  | none =>
    match ms with
    | [] => .error ⟨.not_found, false⟩
    | [i] => .ok i
    | _ => .error ⟨.invalid_input, false⟩

/-- The sibling positions spanned by a resolved range: start and end indices
with per-side inclusive/exclusive flags. -/
def rangeSlice (scope : List Block) (i j : Nat) (inclusiveStart inclusiveEnd : Bool) :
    List Block :=
  let s := if inclusiveStart then i else i + 1
  let e := if inclusiveEnd then j + 1 else j
  (scope.drop s).take (e - s)

/-- A `BlockRange`'s fingerprints: the ordered `(id, last_edited_time)`
pairs (§3). -/
def fingerprints (bs : List Block) : List (String × String) :=
  bs.map (fun b => (b.id, b.last_edited_time))

/-- `chunk` from src/src/notion/repository.ts: split a list into
consecutive chunks of at most `chunkSize` elements. -/
def chunkList {α : Type} : List α → Nat → List (List α)
  | [], _ => []
  | x :: rest, size =>
    if _h : size = 0 then []
    else ((x :: rest).take size) :: chunkList ((x :: rest).drop size) size
termination_by items _ => items.length
decreasing_by
  simp only [List.length_drop, List.length_cons]
  omega

instance {ε α : Type} [DecidableEq ε] [DecidableEq α] : DecidableEq (Except ε α) := fun a b =>
  match a, b with
  | .ok x, .ok y =>
    if h : x = y then isTrue (by rw [h]) else isFalse (fun hh => h (Except.ok.inj hh))
  | .error x, .error y =>
    if h : x = y then isTrue (by rw [h]) else isFalse (fun hh => h (Except.error.inj hh))
  | .ok _, .error _ => isFalse nofun
  | .error _, .ok _ => isFalse nofun

/-- Result of a range replacement: the outcome (ids deleted on success) and
the number of upstream append and delete calls issued. -/
structure ReplaceOutcome where
  outcome : Except CliError (List String)
  appendCalls : Nat
  deleteCalls : Nat
deriving DecidableEq

/-- Modelled from the spec: `replaceBlockRange` (§4.6) — the implementation
is absent from src/ (only its tests are present).  Resolve both selectors
against the sibling list as listed at selection time (`siblings1`), capture
the range's fingerprints, insert the new content in chunks of at most 100
blocks, then immediately before deleting re-resolve the range against the
sibling list as it stands at deletion time (`siblings2`); any fingerprint
divergence (or failed re-resolution) aborts with a conflict before any
deletion, leaving the inserted content in place; on a match every original
block in the range is deleted individually. -/
def replaceBlockRange (siblings1 siblings2 : List Block) (startSel endSel : Selector)
    (newBlocks : List Json) (inclusiveStart inclusiveEnd : Bool) (maxBlocks : Nat) :
    ReplaceOutcome :=
  let scope1 := siblings1.take maxBlocks
  match resolveSelectorIndex scope1 startSel, resolveSelectorIndex scope1 endSel with
  | .error e, _ => ⟨.error e, 0, 0⟩
  | .ok _, .error e => ⟨.error e, 0, 0⟩
  | .ok i, .ok j =>
    let range1 := rangeSlice scope1 i j inclusiveStart inclusiveEnd
    let fps1 := fingerprints range1
    let appends := (chunkList newBlocks 100).length
    let scope2 := siblings2.take maxBlocks
    match resolveSelectorIndex scope2 startSel, resolveSelectorIndex scope2 endSel with
    | .error _, _ => ⟨.error ⟨.conflict, false⟩, appends, 0⟩
    | .ok _, .error _ => ⟨.error ⟨.conflict, false⟩, appends, 0⟩
    | .ok i2, .ok j2 =>
      let fps2 := fingerprints (rangeSlice scope2 i2 j2 inclusiveStart inclusiveEnd)
      if fps1 ≠ fps2 then ⟨.error ⟨.conflict, false⟩, appends, 0⟩
      else ⟨.ok (range1.map Block.id), appends, range1.length⟩

/-- `summary` of a bulk creation. -/
structure BulkSummary where
  requested : Nat
  created : Nat
  failed : Nat
deriving DecidableEq

/-- One item report of a bulk creation. -/
structure BulkItem where
  index : Nat
  ok : Bool
  page : Option Json
  error : Option ErrorCode
deriving DecidableEq

/-- A bulk creation report. -/
structure BulkResult where
  summary : BulkSummary
  items : List BulkItem
deriving DecidableEq

/-- How a single item's creation outcome is reported: a success carries the
page, a failure the `toCliError` classification of the upstream error. -/
def bulkItemOf (i : Nat) (o : Except UpstreamError Json) : BulkItem :=
  match o with
  | .ok page => ⟨i, true, some page, none⟩
  | .error e => ⟨i, false, none, some (toCliError e).code⟩

/-- Modelled from the spec: `createPagesBulk` (§4.7) — the implementation is
absent from src/ (only its tests are present).  Each item's creation outcome
is supplied explicitly (`outcomes`, in input order); items are reported
independently and in input order regardless of completion order, and the
call itself always returns a report, never an exception.  The bounded worker
pool only schedules the creations and is not modelled. -/
def createPagesBulk (outcomes : List (Except UpstreamError Json)) : BulkResult :=
  let items := outcomes.enum.map (fun p => bulkItemOf p.1 p.2)
  ⟨⟨outcomes.length,
    items.countP (fun it => it.ok),
    items.countP (fun it => !it.ok)⟩, items⟩

theorem executeAux_stop {α : Type} {fn : Nat → Except UpstreamError α} {m t : Nat}
    (hnlt : ¬ t < m) :
    executeAux fn m t = (.error (.inr ⟨.retryable_upstream, true⟩), t) := by
  rw [executeAux, dif_neg hnlt]

theorem executeAux_step_ok {α : Type} {fn : Nat → Except UpstreamError α} {m t : Nat}
    {v : α} (hlt : t < m) (hfn : fn (t + 1) = .ok v) :
    executeAux fn m t = (.ok v, t + 1) := by
  rw [executeAux, dif_pos hlt, hfn]

theorem executeAux_step_err {α : Type} {fn : Nat → Except UpstreamError α} {m t : Nat}
    {e : UpstreamError} (hlt : t < m) (hfn : fn (t + 1) = .error e) :
    executeAux fn m t =
      if isRetryable e = false ∨ m ≤ t + 1 then (.error (.inl e), t + 1)
      else executeAux fn m (t + 1) := by
  rw [executeAux, dif_pos hlt, hfn]

theorem executeAux_attempts_le {α : Type} (fn : Nat → Except UpstreamError α) :
    ∀ (k m t : Nat), m - t ≤ k → t ≤ m → (executeAux fn m t).2 ≤ m := by
  intro k
  induction k with
  | zero =>
    intro m t hk ht
    rw [executeAux_stop (by omega)]
    exact ht
  | succ k ih =>
    intro m t hk ht
    by_cases hlt : t < m
    · cases hfn : fn (t + 1) with
      | ok v =>
        rw [executeAux_step_ok hlt hfn]
        simpa using by omega
      | error e =>
        rw [executeAux_step_err hlt hfn]
        by_cases hcond : isRetryable e = false ∨ m ≤ t + 1
        · rw [if_pos hcond]
          simpa using by omega
        · rw [if_neg hcond]
          exact ih m (t + 1) (by omega) (by omega)
    · rw [executeAux_stop hlt]
      exact ht

theorem executeAux_stops_nonretryable {α : Type} (fn : Nat → Except UpstreamError α) :
    ∀ (d m t k : Nat) (e : UpstreamError), k - t ≤ d → t < k → k ≤ m →
      (∀ i, t < i → i < k → ∃ ei, fn i = .error ei ∧ isRetryable ei = true) →
      fn k = .error e → isRetryable e = false →
      executeAux fn m t = (.error (.inl e), k) := by
  intro d
  induction d with
  | zero =>
    intro m t k e hd ht _ _ _ _
    omega
  | succ d ih =>
    intro m t k e hd ht hk htrans hfk hnr
    by_cases heq : t + 1 = k
    · subst heq
      rw [executeAux_step_err (by omega) hfk, if_pos (Or.inl hnr)]
    · have h1 : t + 1 < k := by omega
      obtain ⟨e1, hfe1, hre1⟩ := htrans (t + 1) (by omega) h1
      have hcond : ¬(isRetryable e1 = false ∨ m ≤ t + 1) := by
        simp only [hre1, not_or]
        exact ⟨by simp, by omega⟩
      rw [executeAux_step_err (by omega) hfe1, if_neg hcond]
      exact ih m (t + 1) k e (by omega) h1 hk
        (fun i hi1 hi2 => htrans i (by omega) hi2) hfk hnr

theorem executeAux_exhausts_transient {α : Type} (fn : Nat → Except UpstreamError α) :
    ∀ (d m t : Nat), m - t ≤ d → t < m →
      (∀ i, t < i → i ≤ m → ∃ ei, fn i = .error ei ∧ isRetryable ei = true) →
      ∃ em, fn m = .error em ∧ isRetryable em = true ∧
        executeAux fn m t = (.error (.inl em), m) := by
  intro d
  induction d with
  | zero =>
    intro m t hd ht _
    omega
  | succ d ih =>
    intro m t hd ht htrans
    by_cases heq : t + 1 = m
    · obtain ⟨em, hfem, hrem⟩ := htrans m (by omega) (by omega)
      refine ⟨em, hfem, hrem, ?_⟩
      rw [show m = t + 1 from heq.symm] at hfem
      rw [executeAux_step_err ht hfem, if_pos (Or.inr (by omega))]
      rw [heq]
    · have h1 : t + 1 < m := by omega
      obtain ⟨e1, hfe1, hre1⟩ := htrans (t + 1) (by omega) (by omega)
      obtain ⟨em, hfem, hrem, hres⟩ := ih m (t + 1) (by omega) h1
        (fun i hi1 hi2 => htrans i (by omega) hi2)
      refine ⟨em, hfem, hrem, ?_⟩
      have hcond : ¬(isRetryable e1 = false ∨ m ≤ t + 1) := by
        simp only [hre1, not_or]
        exact ⟨by simp, by omega⟩
      rw [executeAux_step_err ht hfe1, if_neg hcond]
      exact hres

theorem executeAux_ok {α : Type} (fn : Nat → Except UpstreamError α) :
    ∀ (d m t : Nat) (k : Nat) (v : α), k - t ≤ d → t < k → k ≤ m →
      (∀ i, t < i → i < k → ∃ ei, fn i = .error ei ∧ isRetryable ei = true) →
      fn k = .ok v →
      executeAux fn m t = (.ok v, k) := by
  intro d
  induction d with
  | zero =>
    intro m t k v hd ht _ _ _
    omega
  | succ d ih =>
    intro m t k v hd ht hk htrans hfk
    by_cases heq : t + 1 = k
    · subst heq
      rw [executeAux_step_ok (by omega) hfk]
    · have h1 : t + 1 < k := by omega
      obtain ⟨e1, hfe1, hre1⟩ := htrans (t + 1) (by omega) h1
      have hcond : ¬(isRetryable e1 = false ∨ m ≤ t + 1) := by
        simp only [hre1, not_or]
        exact ⟨by simp, by omega⟩
      rw [executeAux_step_err (by omega) hfe1, if_neg hcond]
      exact ih m (t + 1) k v (by omega) h1 hk
        (fun i hi1 hi2 => htrans i (by omega) hi2) hfk

theorem bestEffortAux_stop {π ρ : Type} {retrieve : Nat → π}
    {apply : Nat → π → Except UpstreamError ρ} {attempts attempt reads applies : Nat}
    (hgt : ¬ attempt ≤ attempts) :
    bestEffortAux retrieve apply attempts attempt reads applies =
      (.error (.inr ⟨.conflict, false⟩), reads, applies) := by
  rw [bestEffortAux, dif_neg hgt]

theorem bestEffortAux_step_ok {π ρ : Type} {retrieve : Nat → π}
    {apply : Nat → π → Except UpstreamError ρ} {attempts attempt reads applies : Nat}
    {r : ρ} (hle : attempt ≤ attempts) (happ : apply attempt (retrieve attempt) = .ok r) :
    bestEffortAux retrieve apply attempts attempt reads applies =
      (.ok r, reads + 1, applies + 1) := by
  rw [bestEffortAux, dif_pos hle, happ]

theorem bestEffortAux_step_err {π ρ : Type} {retrieve : Nat → π}
    {apply : Nat → π → Except UpstreamError ρ} {attempts attempt reads applies : Nat}
    {e : UpstreamError} (hle : attempt ≤ attempts)
    (happ : apply attempt (retrieve attempt) = .error e) :
    bestEffortAux retrieve apply attempts attempt reads applies =
      if e.status = some 409 ∧ attempt < attempts then
        bestEffortAux retrieve apply attempts (attempt + 1) (reads + 1) (applies + 1)
      else (.error (.inl e), reads + 1, applies + 1) := by
  rw [bestEffortAux, dif_pos hle, happ]

theorem toCliError_409 {e : UpstreamError} (h : e.status = some 409) :
    toCliError e = ⟨.conflict, false⟩ := by
  obtain ⟨st⟩ := e
  simp only at h
  subst h
  rfl

/-- Claim C3: the Transport Adapter issues at most 5 attempts per call; a
failure whose status is not classified transient (429, 502, 503, 504)
propagates immediately and unmodified after the current attempt; a call
whose 5th attempt still fails with a classified-transient error raises a
failure that classifies as retryable-upstream. -/
theorem claim_C3_transport_retry_policy {α : Type} (fn : Nat → Except UpstreamError α) :
    (executeTransport fn).2 ≤ 5 ∧
    (∀ k e, 0 < k → k ≤ 5 →
      (∀ i, 0 < i → i < k → ∃ ei, fn i = .error ei ∧ isRetryable ei = true) →
      fn k = .error e → isRetryable e = false →
      executeTransport fn = (.error (.inl e), k)) ∧
    ((∀ i, 0 < i → i ≤ 5 → ∃ ei, fn i = .error ei ∧ isRetryable ei = true) →
      ∃ e5, fn 5 = .error e5 ∧ executeTransport fn = (.error (.inl e5), 5) ∧
        toCliError e5 = ⟨.retryable_upstream, true⟩) := by
  refine ⟨executeAux_attempts_le fn 5 5 0 (by omega) (by omega), ?_, ?_⟩
  · intro k e hk1 hk5 htrans hfk hnr
    exact executeAux_stops_nonretryable fn 5 5 0 k e (by omega) hk1 hk5 htrans hfk hnr
  · intro htrans
    obtain ⟨e5, hf, hr, hres⟩ :=
      executeAux_exhausts_transient fn 5 5 0 (by omega) (by omega)
        (fun i hi1 hi2 => htrans i hi1 hi2)
    exact ⟨e5, hf, hres, toCliError_of_isRetryable hr⟩

theorem claim_C3_witness :
    (executeTransport (fun _ => (.error ⟨some 429⟩ : Except UpstreamError Json))).2 ≤ 5 ∧
    executeTransport (fun _ => (.error ⟨some 429⟩ : Except UpstreamError Json)) =
      (.error (.inl ⟨some 429⟩), 5) ∧
    toCliError ⟨some 429⟩ = ⟨.retryable_upstream, true⟩ ∧
    executeTransport (fun _ => (.error ⟨some 400⟩ : Except UpstreamError Json)) =
      (.error (.inl ⟨some 400⟩), 1) := by
  have h1 := claim_C3_transport_retry_policy (fun _ => (.error ⟨some 429⟩ : Except UpstreamError Json))
  have h2 := claim_C3_transport_retry_policy (fun _ => (.error ⟨some 400⟩ : Except UpstreamError Json))
  obtain ⟨e5, hf, hres, hcli⟩ := h1.2.2 (fun i _ _ => ⟨⟨some 429⟩, rfl, rfl⟩)
  have he : (⟨some 429⟩ : UpstreamError) = e5 := Except.error.inj hf
  subst he
  refine ⟨h1.1, hres, hcli, ?_⟩
  · exact h2.2.1 1 ⟨some 400⟩ (by omega) (by omega) (fun i hi1 hi2 => absurd hi2 (by omega))
      rfl rfl

/-- Claim C5: every single-page property mutation submission attempt is
preceded by a fresh page read (read and submission counts coincide, and
attempt `i` submits against `retrieve i`); at most 2 upstream update
attempts are made; a 409 on the first attempt triggers exactly one further
attempt, a 409 on the second surfaces the raw conflict error, which
classifies as a non-retryable conflict failure; any non-409 failure
propagates without retry. -/
theorem claim_C5_page_mutation_retry {π ρ : Type} (retrieve : Nat → π)
    (apply : Nat → π → Except UpstreamError ρ) :
    ((withBestEffortPageMutation retrieve apply).2.1 =
        (withBestEffortPageMutation retrieve apply).2.2 ∧
      (withBestEffortPageMutation retrieve apply).2.2 ≤ 2) ∧
    (∀ e1 e2, apply 1 (retrieve 1) = .error e1 → e1.status = some 409 →
      apply 2 (retrieve 2) = .error e2 → e2.status = some 409 →
      withBestEffortPageMutation retrieve apply = (.error (.inl e2), 2, 2) ∧
      toCliError e2 = ⟨.conflict, false⟩) ∧
    (∀ e, apply 1 (retrieve 1) = .error e → e.status ≠ some 409 →
      withBestEffortPageMutation retrieve apply = (.error (.inl e), 1, 1)) := by
  refine ⟨?_, ?_, ?_⟩
  · unfold withBestEffortPageMutation
    cases happ1 : apply 1 (retrieve 1) with
    | ok r =>
      rw [bestEffortAux_step_ok (by omega) happ1]
      exact ⟨rfl, by simp⟩
    | error e =>
      rw [bestEffortAux_step_err (by omega) happ1]
      by_cases hc : e.status = some 409 ∧ 1 < 2
      · rw [if_pos hc]
        cases happ2 : apply 2 (retrieve 2) with
        | ok r =>
          rw [bestEffortAux_step_ok (by omega) happ2]
          exact ⟨rfl, by simp⟩
        | error e2 =>
          rw [bestEffortAux_step_err (by omega) happ2,
            if_neg (by simp : ¬(e2.status = some 409 ∧ 2 < 2))]
          exact ⟨rfl, by simp⟩
      · rw [if_neg hc]
        exact ⟨rfl, by simp⟩
  · intro e1 e2 happ1 hs1 happ2 hs2
    unfold withBestEffortPageMutation
    rw [bestEffortAux_step_err (by omega) happ1, if_pos ⟨hs1, by omega⟩,
      bestEffortAux_step_err (by omega) happ2,
      if_neg (by simp : ¬(e2.status = some 409 ∧ 2 < 2))]
    exact ⟨rfl, toCliError_409 hs2⟩
  · intro e happ1 hs
    unfold withBestEffortPageMutation
    rw [bestEffortAux_step_err (by omega) happ1,
      if_neg (fun hc => hs hc.1)]

theorem claim_C5_witness :
    withBestEffortPageMutation (fun _ => Json.null)
        (fun _ _ => (.error ⟨some 409⟩ : Except UpstreamError Json)) =
      (.error (.inl ⟨some 409⟩), 2, 2) ∧
    toCliError ⟨some 409⟩ = ⟨.conflict, false⟩ ∧
    withBestEffortPageMutation (fun _ => Json.null)
        (fun _ _ => (.error ⟨some 400⟩ : Except UpstreamError Json)) =
      (.error (.inl ⟨some 400⟩), 1, 1) ∧
    (withBestEffortPageMutation (fun _ => Json.null)
        (fun _ _ => (.ok (Json.bool true) : Except UpstreamError Json))).2.1 =
      (withBestEffortPageMutation (fun _ => Json.null)
        (fun _ _ => (.ok (Json.bool true) : Except UpstreamError Json))).2.2 := by
  have h1 := claim_C5_page_mutation_retry (fun _ => Json.null)
    (fun _ _ => (.error ⟨some 409⟩ : Except UpstreamError Json))
  have h2 := claim_C5_page_mutation_retry (fun _ => Json.null)
    (fun _ _ => (.error ⟨some 400⟩ : Except UpstreamError Json))
  have h3 := claim_C5_page_mutation_retry (fun _ => Json.null)
    (fun _ _ => (.ok (Json.bool true) : Except UpstreamError Json))
  obtain ⟨ha, hb⟩ := h1.2.1 ⟨some 409⟩ ⟨some 409⟩ rfl rfl rfl rfl
  exact ⟨ha, hb, h2.2.2 ⟨some 400⟩ rfl (by decide), h3.1.1⟩

/-- Claim C1: on a store with no record for (key, command), the first
`reserve` of a (key, command, hash) triple returns `Execute`; every further
`reserve` of the same triple before `complete` returns `Pending` (the
second reserve also leaves the table unchanged, so all later ones behave
identically); a `reserve` with the same (key, command) but a different hash
returns `Conflict` carrying the stored hash, and never `Execute`. -/
theorem claim_C1_reserve_state_machine (s0 : StoreState) (key cmd hash : String)
    (hfresh : findRow s0 key cmd = none) :
    (reserve s0 key cmd hash).1 = .execute ∧
    reserve (reserve s0 key cmd hash).2 key cmd hash =
      (.pending, (reserve s0 key cmd hash).2) ∧
    (∀ hash2, hash2 ≠ hash →
      (reserve (reserve s0 key cmd hash).2 key cmd hash2).1 = .conflict hash ∧
      (reserve (reserve s0 key cmd hash).2 key cmd hash2).1 ≠ .execute) := by
  have h1 : reserve s0 key cmd hash =
      (.execute, s0 ++ [⟨key, cmd, hash, PENDING_RESPONSE⟩]) := reserve_fresh hash hfresh
  have hfind := findRow_append_fresh hash hfresh
  refine ⟨by rw [h1], ?_, ?_⟩
  · rw [h1]
    exact reserve_pending hfind rfl rfl
  · intro hash2 hne
    rw [h1]
    have hcf := reserve_conflict hfind (show hash ≠ hash2 from fun hh => hne hh.symm)
    rw [hcf]
    exact ⟨rfl, by simp⟩

theorem claim_C1_witness :
    (reserve [] "k" "pages.update" "h1").1 = .execute ∧
    reserve (reserve [] "k" "pages.update" "h1").2 "k" "pages.update" "h1" =
      (.pending, (reserve [] "k" "pages.update" "h1").2) ∧
    (reserve (reserve [] "k" "pages.update" "h1").2 "k" "pages.update" "h2").1 =
      .conflict "h1" ∧
    (reserve (reserve [] "k" "pages.update" "h1").2 "k" "pages.update" "h2").1 ≠
      .execute := by
  have h := claim_C1_reserve_state_machine [] "k" "pages.update" "h1" rfl
  exact ⟨h.1, h.2.1, h.2.2 "h2" (by decide)⟩

/-- Claim C7 (amended): for every (key, command, hash) triple holding a
pending reservation and every response value R whose serialization differs
from the internal pending sentinel, `complete` succeeds and a subsequent
`lookup` with the same triple returns `Replay` carrying exactly R. -/
theorem claim_C7_complete_lookup_roundtrip (s : StoreState) (key cmd hash : String)
    (row : StoreRow) (R : Json) (hu : pkUnique s) (hf : findRow s key cmd = some row)
    (hh : row.input_hash = hash) (_hpend : row.response = PENDING_RESPONSE)
    (hR : R ≠ PENDING_RESPONSE) :
    (complete s key cmd hash R).1 = none ∧
      lookup (complete s key cmd hash R).2 key cmd hash = .replay R :=
  complete_lookup_roundtrip hu hf hh hR

theorem claim_C7_witness :
    (complete [⟨"k", "pages.update", "h1", PENDING_RESPONSE⟩] "k" "pages.update" "h1"
        (.obj [("ok", .bool true), ("id", .str "t1")])).1 = none ∧
      lookup (complete [⟨"k", "pages.update", "h1", PENDING_RESPONSE⟩] "k" "pages.update" "h1"
          (.obj [("ok", .bool true), ("id", .str "t1")])).2 "k" "pages.update" "h1" =
        .replay (.obj [("ok", .bool true), ("id", .str "t1")]) :=
  claim_C7_complete_lookup_roundtrip [⟨"k", "pages.update", "h1", PENDING_RESPONSE⟩]
    "k" "pages.update" "h1" ⟨"k", "pages.update", "h1", PENDING_RESPONSE⟩
    (.obj [("ok", .bool true), ("id", .str "t1")])
    (by unfold pkUnique; decide) rfl rfl rfl (by decide)

/-- Claim C7 counterexample: the claim fails as stated at the response value
`{ __notion_lite_pending: true }`, whose serialization is exactly the
pending sentinel string.  `complete` succeeds, but the subsequent `lookup`
reports `pending` instead of replaying the persisted response. -/
theorem claim_C7_counterexample :
    (complete [⟨"k", "pages.update", "h1", PENDING_RESPONSE⟩] "k" "pages.update" "h1"
        (.obj [("__notion_lite_pending", .bool true)])).1 = none ∧
    lookup (complete [⟨"k", "pages.update", "h1", PENDING_RESPONSE⟩] "k" "pages.update" "h1"
        (.obj [("__notion_lite_pending", .bool true)])).2 "k" "pages.update" "h1" =
      .pending ∧
    lookup (complete [⟨"k", "pages.update", "h1", PENDING_RESPONSE⟩] "k" "pages.update" "h1"
        (.obj [("__notion_lite_pending", .bool true)])).2 "k" "pages.update" "h1" ≠
      .replay (.obj [("__notion_lite_pending", .bool true)]) := by
  decide

/-- Unfolding lemmas for the pipeline, one per reservation outcome. -/
theorem pipeline_pending {ε : Type} {H : String → String} {bucket : Nat} {s0 s1 : StoreState}
    {cmd : String} {shape : Json} (run : Except ε Json) (sinkOk : Bool)
    (hres : reserve s0 (buildInternalIdempotencyKey H bucket cmd shape) cmd
      (hashObject H shape) = (.pending, s1)) :
    executeMutationWithIdempotency H bucket s0 cmd shape run sinkOk =
      ⟨.error (.inl ⟨.retryable_upstream, true⟩), s1, safeAppendAuditLog sinkOk [] false⟩ := by
  simp only [executeMutationWithIdempotency]
  rw [hres]

theorem pipeline_conflict {ε : Type} {H : String → String} {bucket : Nat} {s0 s1 : StoreState}
    {cmd : String} {shape : Json} {storedHash : String} (run : Except ε Json) (sinkOk : Bool)
    (hres : reserve s0 (buildInternalIdempotencyKey H bucket cmd shape) cmd
      (hashObject H shape) = (.conflict storedHash, s1)) :
    executeMutationWithIdempotency H bucket s0 cmd shape run sinkOk =
      ⟨.error (.inl ⟨.idempotency_key_conflict, false⟩), s1,
        safeAppendAuditLog sinkOk [] false⟩ := by
  simp only [executeMutationWithIdempotency]
  rw [hres]

theorem pipeline_replay {ε : Type} {H : String → String} {bucket : Nat} {s0 s1 : StoreState}
    {cmd : String} {shape : Json} {r : Json} (run : Except ε Json) (sinkOk : Bool)
    (hres : reserve s0 (buildInternalIdempotencyKey H bucket cmd shape) cmd
      (hashObject H shape) = (.replay r, s1)) :
    executeMutationWithIdempotency H bucket s0 cmd shape run sinkOk =
      ⟨.ok r, s1, safeAppendAuditLog sinkOk [] true⟩ := by
  simp only [executeMutationWithIdempotency]
  rw [hres]

theorem pipeline_execute_err {ε : Type} {H : String → String} {bucket : Nat}
    {s0 s1 : StoreState} {cmd : String} {shape : Json} (e : ε) (sinkOk : Bool)
    (hres : reserve s0 (buildInternalIdempotencyKey H bucket cmd shape) cmd
      (hashObject H shape) = (.execute, s1)) :
    executeMutationWithIdempotency H bucket s0 cmd shape (.error e) sinkOk =
      ⟨.error (.inr e), release s1 (buildInternalIdempotencyKey H bucket cmd shape) cmd
        (hashObject H shape), safeAppendAuditLog sinkOk [] false⟩ := by
  simp only [executeMutationWithIdempotency]
  rw [hres]

theorem pipeline_execute_ok {ε : Type} {H : String → String} {bucket : Nat}
    {s0 s1 : StoreState} {cmd : String} {shape : Json} (resp : Json) (sinkOk : Bool)
    (hres : reserve s0 (buildInternalIdempotencyKey H bucket cmd shape) cmd
      (hashObject H shape) = (.execute, s1)) :
    executeMutationWithIdempotency H bucket s0 cmd shape (Except.ok resp : Except ε Json)
        sinkOk =
      match complete s1 (buildInternalIdempotencyKey H bucket cmd shape) cmd
          (hashObject H shape) resp with
      | (none, s2) => ⟨.ok resp, s2, safeAppendAuditLog sinkOk [] true⟩
      | (some ce, s2) =>
        ⟨.error (.inl ce), release s2 (buildInternalIdempotencyKey H bucket cmd shape) cmd
          (hashObject H shape), safeAppendAuditLog sinkOk [] false⟩ := by
  simp only [executeMutationWithIdempotency]
  rw [hres]

/-- Claim C4: when this invocation's `reserve` returned `Execute` and the
unit of work throws, the pending reservation is deleted via `release` (the
row is gone, never completed), an immediately subsequent `reserve` of the
same (key, command, hash) returns `Execute` again, the original error is
rethrown unchanged, and the audit sink's health never changes any
invocation's outcome or final store state. -/
theorem claim_C4_release_on_failure {ε : Type} (H : String → String) (bucket : Nat)
    (s0 : StoreState) (cmd : String) (shape : Json) (e : ε) (sinkOk : Bool)
    (hfresh : findRow s0 (buildInternalIdempotencyKey H bucket cmd shape) cmd = none) :
    (executeMutationWithIdempotency H bucket s0 cmd shape (.error e) sinkOk).outcome =
      .error (.inr e) ∧
    findRow (executeMutationWithIdempotency H bucket s0 cmd shape (.error e) sinkOk).store
      (buildInternalIdempotencyKey H bucket cmd shape) cmd = none ∧
    (reserve (executeMutationWithIdempotency H bucket s0 cmd shape (.error e) sinkOk).store
      (buildInternalIdempotencyKey H bucket cmd shape) cmd (hashObject H shape)).1 =
      .execute ∧
    (∀ (run : Except ε Json) (a b : Bool),
      (executeMutationWithIdempotency H bucket s0 cmd shape run a).outcome =
        (executeMutationWithIdempotency H bucket s0 cmd shape run b).outcome ∧
      (executeMutationWithIdempotency H bucket s0 cmd shape run a).store =
        (executeMutationWithIdempotency H bucket s0 cmd shape run b).store) := by
  have hres : reserve s0 (buildInternalIdempotencyKey H bucket cmd shape) cmd
      (hashObject H shape) =
      (.execute, s0 ++ [⟨buildInternalIdempotencyKey H bucket cmd shape, cmd,
        hashObject H shape, PENDING_RESPONSE⟩]) :=
    reserve_fresh (hashObject H shape) hfresh
  have hrel : release (s0 ++ [⟨buildInternalIdempotencyKey H bucket cmd shape, cmd,
      hashObject H shape, PENDING_RESPONSE⟩])
      (buildInternalIdempotencyKey H bucket cmd shape) cmd (hashObject H shape) = s0 :=
    release_append_fresh (hashObject H shape) hfresh
  have hmain : executeMutationWithIdempotency H bucket s0 cmd shape (.error e) sinkOk =
      ⟨.error (.inr e), s0, safeAppendAuditLog sinkOk [] false⟩ := by
    rw [pipeline_execute_err e sinkOk hres, hrel]
  refine ⟨by rw [hmain], by rw [hmain]; exact hfresh, ?_, ?_⟩
  · rw [hmain, reserve_fresh (hashObject H shape) hfresh]
  · intro run a b
    rcases hr : reserve s0 (buildInternalIdempotencyKey H bucket cmd shape) cmd
      (hashObject H shape) with ⟨kind, s1⟩
    cases kind with
    | execute =>
      cases run with
      | ok resp =>
        rw [pipeline_execute_ok resp a hr, pipeline_execute_ok resp b hr]
        rcases hc : complete s1 (buildInternalIdempotencyKey H bucket cmd shape) cmd
          (hashObject H shape) resp with ⟨oe, s2⟩
        cases oe with
        | none => exact ⟨rfl, rfl⟩
        | some ce => exact ⟨rfl, rfl⟩
      | error err =>
        rw [pipeline_execute_err err a hr, pipeline_execute_err err b hr]
        exact ⟨rfl, rfl⟩
    | pending =>
      rw [pipeline_pending run a hr, pipeline_pending run b hr]
      exact ⟨rfl, rfl⟩
    | replay r =>
      rw [pipeline_replay run a hr, pipeline_replay run b hr]
      exact ⟨rfl, rfl⟩
    | conflict hsh =>
      rw [pipeline_conflict run a hr, pipeline_conflict run b hr]
      exact ⟨rfl, rfl⟩

theorem claim_C4_witness :
    (executeMutationWithIdempotency id 0 [] "pages.update" (.obj [("a", .num 1)])
        (.error "boom" : Except String Json) true).outcome = .error (.inr "boom") ∧
    findRow (executeMutationWithIdempotency id 0 [] "pages.update" (.obj [("a", .num 1)])
        (.error "boom" : Except String Json) true).store
      (buildInternalIdempotencyKey id 0 "pages.update" (.obj [("a", .num 1)]))
      "pages.update" = none ∧
    (reserve (executeMutationWithIdempotency id 0 [] "pages.update" (.obj [("a", .num 1)])
        (.error "boom" : Except String Json) true).store
      (buildInternalIdempotencyKey id 0 "pages.update" (.obj [("a", .num 1)]))
      "pages.update" (hashObject id (.obj [("a", .num 1)]))).1 = .execute ∧
    (executeMutationWithIdempotency id 0 [] "pages.update" (.obj [("a", .num 1)])
        (.ok (.bool true) : Except String Json) true).outcome =
      (executeMutationWithIdempotency id 0 [] "pages.update" (.obj [("a", .num 1)])
        (.ok (.bool true) : Except String Json) false).outcome ∧
    (executeMutationWithIdempotency id 0 [] "pages.update" (.obj [("a", .num 1)])
        (.ok (.bool true) : Except String Json) true).store =
      (executeMutationWithIdempotency id 0 [] "pages.update" (.obj [("a", .num 1)])
        (.ok (.bool true) : Except String Json) false).store := by
  have h := claim_C4_release_on_failure id 0 [] "pages.update" (.obj [("a", .num 1)])
    "boom" true rfl
  obtain ⟨ho, hs⟩ := h.2.2.2 (.ok (.bool true) : Except String Json) true false
  exact ⟨h.1, h.2.1, h.2.2.1, ho, hs⟩

/-- Claim C6 (amended): for all request shapes that are structurally equal
up to object-key ordering (recursively, at every nesting depth) and whose
object keys the collator separates — no object carries two distinct
canonically-equivalent keys — `hashObject` yields the same digest, and
consequently `buildInternalIdempotencyKey` yields the same idempotency key
when computed in the same time bucket.  The separation hypothesis is forced
by the counterexample below: `localeCompare` ties canonically-equivalent
keys and the source's stable sort then keeps their insertion order. -/
theorem claim_C6_canonical_hash_key_invariance (H : String → String) (bucket : Nat)
    (cmd : String) (R1 R2 : Json) (h : KeyPermEq R1 R2)
    (w1 : keysSeparated R1 = true) (w2 : keysSeparated R2 = true) :
    hashObject H R1 = hashObject H R2 ∧
    buildInternalIdempotencyKey H bucket cmd R1 =
      buildInternalIdempotencyKey H bucket cmd R2 := by
  have hshape : stableStringify R1 = stableStringify R2 :=
    stableStringify_eq_of_keyPermEq h w1 w2
  have hwrapeq : KeyPermEq (.obj [("commandName", .str cmd), ("requestShape", R1)])
      (.obj [("commandName", .str cmd), ("requestShape", R2)]) :=
    KeyPermEq.obj
      (KeyPermEntries.cons (KeyPermEq.str cmd)
        (KeyPermEntries.cons h KeyPermEntries.nil))
      (List.Perm.refl _)
  have hwrapsep : ∀ R : Json, keysSeparated R = true →
      keysSeparated (.obj [("commandName", .str cmd), ("requestShape", R)]) = true := by
    intro R hR
    have hstep : keysSeparated (.obj [("commandName", .str cmd), ("requestShape", R)]) =
        (decide ((([("commandName", Json.str cmd), ("requestShape", R)] :
            List (String × Json)).map entryKeyCanon).Nodup) &&
          (keysSeparated (.str cmd) && (keysSeparated R && true))) := rfl
    rw [hstep, hR]
    simp only [List.map_cons, List.map_nil, entryKeyCanon, keysSeparated,
      Bool.and_true, Bool.true_and]
    rfl
  have hwrap : stableStringify (.obj [("commandName", .str cmd), ("requestShape", R1)]) =
      stableStringify (.obj [("commandName", .str cmd), ("requestShape", R2)]) :=
    stableStringify_eq_of_keyPermEq hwrapeq (hwrapsep R1 w1) (hwrapsep R2 w2)
  exact ⟨congrArg H hshape,
    by unfold buildInternalIdempotencyKey hashObject; rw [hwrap]⟩

/-- Claim C6 counterexample: the unamended claim fails at the shapes
`{"\u00E9": 1, "e\u0301": 2}` and `{"e\u0301": 2, "\u00E9": 1}` — two
legitimate JS objects (the keys are distinct strings, so `wfJson` holds)
that are structurally equal up to key ordering, yet hash differently: the
keys are canonically equivalent under Unicode, ECMA-402 makes
`localeCompare` return 0 on them, and the stable sort therefore leaves them
in insertion order, so the two canonical strings — and hence the digests
and the idempotency keys in the same time bucket — differ. -/
theorem claim_C6_counterexample :
    KeyPermEq (.obj [("\u00E9", .num 1), ("e\u0301", .num 2)])
      (.obj [("e\u0301", .num 2), ("\u00E9", .num 1)]) ∧
    wfJson (.obj [("\u00E9", .num 1), ("e\u0301", .num 2)]) = true ∧
    wfJson (.obj [("e\u0301", .num 2), ("\u00E9", .num 1)]) = true ∧
    hashObject id (.obj [("\u00E9", .num 1), ("e\u0301", .num 2)]) ≠
      hashObject id (.obj [("e\u0301", .num 2), ("\u00E9", .num 1)]) ∧
    buildInternalIdempotencyKey id 0 "pages.update"
        (.obj [("\u00E9", .num 1), ("e\u0301", .num 2)]) ≠
      buildInternalIdempotencyKey id 0 "pages.update"
        (.obj [("e\u0301", .num 2), ("\u00E9", .num 1)]) :=
  ⟨KeyPermEq.obj
      (KeyPermEntries.cons (KeyPermEq.num 1)
        (KeyPermEntries.cons (KeyPermEq.num 2) KeyPermEntries.nil))
      (List.Perm.swap ("e\u0301", Json.num 2) ("\u00E9", Json.num 1) []),
    by decide, by decide, by decide, by decide⟩

theorem claim_C6_witness :
    hashObject id (.obj [("a", .num 1), ("b", .obj [("c", .num 2), ("d", .num 3)])]) =
      hashObject id (.obj [("b", .obj [("d", .num 3), ("c", .num 2)]), ("a", .num 1)]) ∧
    buildInternalIdempotencyKey id 0 "pages.update"
        (.obj [("a", .num 1), ("b", .obj [("c", .num 2), ("d", .num 3)])]) =
      buildInternalIdempotencyKey id 0 "pages.update"
        (.obj [("b", .obj [("d", .num 3), ("c", .num 2)]), ("a", .num 1)]) :=
  claim_C6_canonical_hash_key_invariance id 0 "pages.update"
    (.obj [("a", .num 1), ("b", .obj [("c", .num 2), ("d", .num 3)])])
    (.obj [("b", .obj [("d", .num 3), ("c", .num 2)]), ("a", .num 1)])
    (KeyPermEq.obj
      (KeyPermEntries.cons (KeyPermEq.num 1)
        (KeyPermEntries.cons
          (KeyPermEq.obj
            (KeyPermEntries.cons (KeyPermEq.num 2)
              (KeyPermEntries.cons (KeyPermEq.num 3) KeyPermEntries.nil))
            (List.Perm.swap ("d", Json.num 3) ("c", Json.num 2) []))
          KeyPermEntries.nil))
      (List.Perm.swap ("b", Json.obj [("d", Json.num 3), ("c", Json.num 2)])
        ("a", Json.num 1) []))
    (by decide) (by decide)

/-- Claim C10: canonicalization sorts only object keys and never reorders
array elements — `sortValue` maps each array to the canonicalizations of
its elements in their original order — so two shapes that are equal as
unordered collections but differ in the order of an array's elements hash
to different digests (for any collision-free digest function). -/
theorem claim_C10_arrays_keep_order (H : String → String)
    (hinj : Function.Injective H) :
    (∀ items : List Json, sortValue (.arr items) = .arr (items.map sortValue)) ∧
    (List.Perm [Json.num 1, Json.num 2] [Json.num 2, Json.num 1] ∧
      hashObject H (.arr [.num 1, .num 2]) ≠ hashObject H (.arr [.num 2, .num 1])) := by
  refine ⟨?_, List.Perm.swap (Json.num 2) (Json.num 1) [], ?_⟩
  · intro items
    simp [sortValue, sortValueList_eq_map]
  · intro heq
    have hss := hinj heq
    have hne : stableStringify (.arr [(.num 1 : Json), .num 2]) ≠
        stableStringify (.arr [.num 2, .num 1]) := by decide
    exact hne hss

theorem claim_C10_witness :
    sortValue (.arr [.null, .bool true]) = .arr ([Json.null, Json.bool true].map sortValue) ∧
    hashObject id (.arr [.num 1, .num 2]) ≠ hashObject id (.arr [.num 2, .num 1]) := by
  have h := claim_C10_arrays_keep_order id (fun _ _ hh => hh)
  exact ⟨h.1 [Json.null, Json.bool true], h.2.2⟩

/-- Claim C8: `selectBlocks` with no `nth` reports the number of predicate
matches in the capped scope; zero matches give no selection and no
ambiguity; exactly one match selects that block; more than one match
reports `ambiguous` with nothing selected.  The engine is a pure function
of the listed siblings: no mutation is possible. -/
theorem claim_C8_select_no_nth (siblings : List Block) (p : BlockPredicate)
    (fromEnd : Bool) (maxBlocks : Nat) :
    ((siblings.take maxBlocks).filter (matchesPredicate p) = [] →
      selectBlocks siblings ⟨p, none, fromEnd⟩ maxBlocks = .ok ⟨0, false, none⟩) ∧
    (∀ b, (siblings.take maxBlocks).filter (matchesPredicate p) = [b] →
      selectBlocks siblings ⟨p, none, fromEnd⟩ maxBlocks = .ok ⟨1, false, some b⟩) ∧
    (2 ≤ ((siblings.take maxBlocks).filter (matchesPredicate p)).length →
      selectBlocks siblings ⟨p, none, fromEnd⟩ maxBlocks =
        .ok ⟨((siblings.take maxBlocks).filter (matchesPredicate p)).length,
          true, none⟩) := by
  refine ⟨?_, ?_, ?_⟩
  · intro hms
    simp [selectBlocks, hms]
  · intro b hms
    simp [selectBlocks, hms]
  · intro hlen
    rcases hms : (siblings.take maxBlocks).filter (matchesPredicate p) with
      _ | ⟨b1, _ | ⟨b2, rest⟩⟩
    · rw [hms] at hlen
      simp at hlen
    · rw [hms] at hlen
      simp at hlen
    · simp [selectBlocks, hms]

theorem claim_C8_witness :
    selectBlocks
      [⟨"b-1", "paragraph", "todo", "t0"⟩, ⟨"b-2", "paragraph", "todo", "t0"⟩]
      ⟨⟨none, some "todo"⟩, none, false⟩ 5000 = .ok ⟨2, true, none⟩ :=
  (claim_C8_select_no_nth
    [⟨"b-1", "paragraph", "todo", "t0"⟩, ⟨"b-2", "paragraph", "todo", "t0"⟩]
    ⟨none, some "todo"⟩ false 5000).2.2 (by decide)

/-- Claim C2: a `replaceBlockRange` call whose re-resolved sibling range has
fingerprints differing from those captured at selection time fails with a
conflict error, issues zero delete calls, and issues exactly the initial
insert's append calls and no more — the already-performed insertion is
neither retried nor undone, and no block in the range is deleted. -/
theorem claim_C2_replace_conflict (siblings1 siblings2 : List Block)
    (startSel endSel : Selector) (newBlocks : List Json)
    (inclusiveStart inclusiveEnd : Bool) (maxBlocks : Nat) (i j i2 j2 : Nat)
    (h1 : resolveSelectorIndex (siblings1.take maxBlocks) startSel = .ok i)
    (h2 : resolveSelectorIndex (siblings1.take maxBlocks) endSel = .ok j)
    (h3 : resolveSelectorIndex (siblings2.take maxBlocks) startSel = .ok i2)
    (h4 : resolveSelectorIndex (siblings2.take maxBlocks) endSel = .ok j2)
    (hfp : fingerprints (rangeSlice (siblings1.take maxBlocks) i j
        inclusiveStart inclusiveEnd) ≠
      fingerprints (rangeSlice (siblings2.take maxBlocks) i2 j2
        inclusiveStart inclusiveEnd)) :
    replaceBlockRange siblings1 siblings2 startSel endSel newBlocks
        inclusiveStart inclusiveEnd maxBlocks =
      ⟨.error ⟨.conflict, false⟩, (chunkList newBlocks 100).length, 0⟩ := by
  simp only [replaceBlockRange, h1, h2, h3, h4]
  rw [if_pos hfp]

theorem claim_C2_witness :
    replaceBlockRange
      [⟨"b-1", "paragraph", "one", "t0"⟩, ⟨"b-2", "paragraph", "two", "t0"⟩]
      [⟨"b-1", "paragraph", "one", "t9"⟩, ⟨"b-2", "paragraph", "two", "t0"⟩]
      ⟨⟨none, some "one"⟩, none, false⟩ ⟨⟨none, some "two"⟩, none, false⟩
      [.obj [("type", .str "paragraph")]] true true 5000 =
      ⟨.error ⟨.conflict, false⟩,
        (chunkList [(.obj [("type", .str "paragraph")] : Json)] 100).length, 0⟩ :=
  claim_C2_replace_conflict
    [⟨"b-1", "paragraph", "one", "t0"⟩, ⟨"b-2", "paragraph", "two", "t0"⟩]
    [⟨"b-1", "paragraph", "one", "t9"⟩, ⟨"b-2", "paragraph", "two", "t0"⟩]
    ⟨⟨none, some "one"⟩, none, false⟩ ⟨⟨none, some "two"⟩, none, false⟩
    [.obj [("type", .str "paragraph")]] true true 5000 0 1 0 1
    (by decide) (by decide) (by decide) (by decide) (by decide)

/-- Claim C9: `createPagesBulk` reports every item independently and in
input order — a per-item upstream failure neither aborts sibling items nor
escapes the batch call (the batch is a total function into a report); in
particular a batch of one item rejected upstream with status 400 reports
`summary = {requested: 1, created: 0, failed: 1}` and
`items[0] = {index: 0, ok: false, error: invalid_input}`. -/
theorem claim_C9_bulk_isolation (outcomes : List (Except UpstreamError Json)) :
    ((createPagesBulk outcomes).items.length = outcomes.length ∧
      (∀ k o, outcomes.get? k = some o →
        (createPagesBulk outcomes).items.get? k = some (bulkItemOf k o))) ∧
    ((createPagesBulk [(.error ⟨some 400⟩ : Except UpstreamError Json)]).summary =
        ⟨1, 0, 1⟩ ∧
      (createPagesBulk [(.error ⟨some 400⟩ : Except UpstreamError Json)]).items =
        [⟨0, false, none, some .invalid_input⟩]) := by
  refine ⟨⟨?_, ?_⟩, by decide, by decide⟩
  · simp [createPagesBulk]
  · intro k o hk
    simp [createPagesBulk, List.getElem?_map, List.getElem?_enum, hk]
    exact ⟨o, by rw [← List.get?_eq_getElem?]; exact hk, rfl⟩

theorem claim_C9_witness :
    (createPagesBulk [(.error ⟨some 400⟩ : Except UpstreamError Json)]).items.length =
      [(.error ⟨some 400⟩ : Except UpstreamError Json)].length ∧
    (createPagesBulk [(.error ⟨some 400⟩ : Except UpstreamError Json)]).items.get? 0 =
      some (bulkItemOf 0 (.error ⟨some 400⟩)) ∧
    (createPagesBulk [(.error ⟨some 400⟩ : Except UpstreamError Json)]).summary =
      ⟨1, 0, 1⟩ ∧
    (createPagesBulk [(.error ⟨some 400⟩ : Except UpstreamError Json)]).items =
      [⟨0, false, none, some .invalid_input⟩] := by
  have h := claim_C9_bulk_isolation [(.error ⟨some 400⟩ : Except UpstreamError Json)]
  exact ⟨h.1.1, h.1.2 0 (.error ⟨some 400⟩) rfl, h.2.1, h.2.2⟩

end NotCli
